import Mathlib

/-!
# Verification of the MB1 memory-map pipeline (memory-map-userland)

Shallow embedding of the repository's Multiboot1 memory-map code
(`src/raw.rs`, `src/frames.rs`).  Machine integers (`u8`, `u32`, `u64`,
`usize`) are embedded as `Nat`; a value being a `uN` is expressed, where it
matters, by an explicit bound `< 2^N`, and wrapping / saturating operations
are written out with `% 2^64` / `min _ (2^64 - 1)`.

Several functions of the repository are declared with their contracts,
doc comments and tests but have a `todo!()` body (`read_one`,
`Mb1MmapIter`, `sanitize` and `MemRegion::end` in `src/raw.rs`;
`UsableFrames` in `src/frames.rs`).  Those are modelled here from the
specification, as indicated by their doc comments.  Functions that do have
a body in the source (`raw`, `push_entry` in `src/raw.rs`; `align_up`,
`align_down`, `MemRegion::end` in `src/frames.rs`) are embedded from that
body.
-/

/-- Little-endian decoding of a byte list: the head is the least
significant byte.  Embeds `u32::from_le_bytes` / `u64::from_le_bytes`
applied to a 4- or 8-byte slice. -/
def leDecode : List Nat → Nat
  | [] => 0
  | b :: rest => b + 256 * leDecode rest

/-- `RawEntry` from `src/raw.rs`: the MB1 wire-level claim.  `size` is the
payload size in bytes (excluding the size field itself, `u32`),
`base_addr` and `length` are `u64`, `typ` is the `u32` memory class
code. -/
structure RawEntry where
  size : Nat
  base_addr : Nat
  length : Nat
  typ : Nat
deriving Repr, DecidableEq

/-- `raw` from `src/raw.rs`: build a minimal MB1 entry (payload size 20). -/
def raw (start len kind : Nat) : RawEntry :=
  { size := 20, base_addr := start, length := len, typ := kind }

/-- `MmapError` from `src/raw.rs`: the closed set of validation
failures.  Payload fields are the Rust `usize` / `u32` values. -/
inductive MmapError where
  | TruncatedHeader (haveBytes : Nat)
  | SizeTooSmall (size : Nat)
  | TruncatedEntry (needed haveBytes : Nat)
deriving Repr, DecidableEq

/-- `push_entry` from `src/raw.rs` (lines 63-83), embedded as written.
The source body is

    buf.push(tipo); buf.push(base_addr); buf.push(length); buf.push(size);

i.e. it pushes the four field *values* (in the order `typ`, `base_addr`,
`length`, `size`) as four single elements of `buf` — it does not
little-endian-serialize them into bytes as its own doc comment and the
tests require (the calls do not even type-check in Rust: `Vec<u8>::push`
is given `u32`/`u64` arguments).  Each `push` is modelled as appending
one element. -/
def push_entry (buf : List Nat) (entry : RawEntry) : List Nat :=
  buf ++ [entry.typ, entry.base_addr, entry.length, entry.size]

/-- Modelled from the spec: the body of `read_one` in `src/raw.rs`
(lines 89-99) is `todo!()`; this definition follows spec §4.2 (and the
step-by-step comments in the source), which give the exact algorithm:
header-length check, little-endian size decode, minimum-size check,
whole-entry bounds check (with `needed = 4 + size` computed without
wrapping — here plain `Nat` addition), then the field decodes at offsets
`[4..12)`, `[12..20)`, `[20..24)`. -/
def read_one (buf : List Nat) : Except MmapError (RawEntry × Nat) :=
  if buf.length < 4 then
    .error (.TruncatedHeader buf.length)
  else
    let size := leDecode (buf.take 4)
    if size < 20 then
      .error (.SizeTooSmall size)
    else
      let needed := 4 + size
      if buf.length < needed then
        .error (.TruncatedEntry needed buf.length)
      else
        .ok ({ size := size
               base_addr := leDecode ((buf.drop 4).take 8)
               length := leDecode ((buf.drop 12).take 8)
               typ := leDecode ((buf.drop 20).take 4) }, needed)

/-- Prefixes of lists agreeing on their first 24 elements: any window
`[a, a+b)` with `a + b ≤ 24` agrees as well. -/
theorem take_drop_eq_of_take_24_eq {l₁ l₂ : List Nat} (h : l₁.take 24 = l₂.take 24)
    {a b : Nat} (hab : a + b ≤ 24) :
    (l₁.drop a).take b = (l₂.drop a).take b := by
  rw [List.take_drop, List.take_drop]
  have h' : l₁.take (a + b) = l₂.take (a + b) := by
    have h2 := congrArg (List.take (a + b)) h
    simpa [List.take_take, Nat.min_eq_left hab] using h2
  rw [h']

/-- **C1.** For every byte slice `buf`, `read_one buf` fails with exactly one
of the three `MmapError` variants, checked in this order: fewer than 4
bytes gives `TruncatedHeader{have = buf.length}`; otherwise a little-endian
decoded `size < 20` gives `SizeTooSmall{size}`; otherwise
`buf.length < 4 + size` (the sum computed without wrapping) gives
`TruncatedEntry{needed = 4 + size, have = buf.length}`; in the remaining
case it succeeds with `consumed = 4 + size`.  Totality of the embedding
(an `Except` value is returned for every input) reflects that `read_one`
never panics. -/
theorem read_one_error_trichotomy (buf : List Nat) :
    (buf.length < 4 → read_one buf = .error (.TruncatedHeader buf.length)) ∧
    (4 ≤ buf.length → leDecode (buf.take 4) < 20 →
      read_one buf = .error (.SizeTooSmall (leDecode (buf.take 4)))) ∧
    (4 ≤ buf.length → 20 ≤ leDecode (buf.take 4) →
      buf.length < 4 + leDecode (buf.take 4) →
      read_one buf = .error (.TruncatedEntry (4 + leDecode (buf.take 4)) buf.length)) ∧
    (4 ≤ buf.length → 20 ≤ leDecode (buf.take 4) →
      4 + leDecode (buf.take 4) ≤ buf.length →
      ∃ e : RawEntry, read_one buf = .ok (e, 4 + leDecode (buf.take 4))) := by
  refine ⟨fun h => by simp [read_one, h], fun h1 h2 => ?_, fun h1 h2 h3 => ?_,
    fun h1 h2 h3 => ?_⟩
  · have h1' : ¬ buf.length < 4 := by omega
    simp [read_one, h1', h2]
  · have h1' : ¬ buf.length < 4 := by omega
    have h2' : ¬ leDecode (buf.take 4) < 20 := by omega
    simp [read_one, h1', h2', h3]
  · have h1' : ¬ buf.length < 4 := by omega
    have h2' : ¬ leDecode (buf.take 4) < 20 := by omega
    have h3' : ¬ buf.length < 4 + leDecode (buf.take 4) := by omega
    exact ⟨{ size := leDecode (buf.take 4)
             base_addr := leDecode ((buf.drop 4).take 8)
             length := leDecode ((buf.drop 12).take 8)
             typ := leDecode ((buf.drop 20).take 4) },
           by simp [read_one, h1', h2', h3']⟩

/-- Witness for `read_one_error_trichotomy`: concrete instances of all four
branches. -/
theorem read_one_error_trichotomy_witness :
    read_one [7, 7] = .error (.TruncatedHeader 2) ∧
    read_one [0, 0, 0, 0, 9] = .error (.SizeTooSmall 0) ∧
    read_one [20, 0, 0, 0, 1] = .error (.TruncatedEntry 24 5) ∧
    ∃ e : RawEntry, read_one ([20, 0, 0, 0] ++ List.replicate 20 0) = .ok (e, 24) := by
  refine ⟨(read_one_error_trichotomy [7, 7]).1 (by decide),
    (read_one_error_trichotomy [0, 0, 0, 0, 9]).2.1 (by decide) (by decide), ?_, ?_⟩
  · have h := (read_one_error_trichotomy [20, 0, 0, 0, 1]).2.2.1 (by decide) (by decide)
      (by decide)
    simpa using h
  · obtain ⟨e, he⟩ := (read_one_error_trichotomy ([20, 0, 0, 0] ++ List.replicate 20 0)).2.2.2
      (by decide) (by decide) (by decide)
    have hnorm : 4 + leDecode (([20, 0, 0, 0] ++ List.replicate 20 0).take 4) = 24 := by decide
    rw [hnorm] at he
    exact ⟨e, he⟩

/-- **C2.** On every buffer whose first 4 bytes decode little-endian to
`size ≥ 20` and whose length is at least `4 + size`, `read_one` succeeds:
it returns the entry whose `base_addr` is the little-endian decode of
bytes `[4..12)`, `length` of `[12..20)`, `typ` of `[20..24)`, whose `size`
is the decoded size (preserved even when above 20), with
`consumed = 4 + size`; and the `size - 20` extension bytes beyond offset
24 have no effect: any buffer agreeing on the first 24 bytes (and long
enough) yields the same entry and the same consumed count. -/
theorem read_one_ok_fields (buf : List Nat)
    (hsize : 20 ≤ leDecode (buf.take 4))
    (hlen : 4 + leDecode (buf.take 4) ≤ buf.length) :
    read_one buf = .ok ({ size := leDecode (buf.take 4)
                          base_addr := leDecode ((buf.drop 4).take 8)
                          length := leDecode ((buf.drop 12).take 8)
                          typ := leDecode ((buf.drop 20).take 4) },
                        4 + leDecode (buf.take 4)) ∧
    ∀ buf₂ : List Nat, buf₂.take 24 = buf.take 24 →
      4 + leDecode (buf.take 4) ≤ buf₂.length →
      read_one buf₂ = .ok ({ size := leDecode (buf.take 4)
                             base_addr := leDecode ((buf.drop 4).take 8)
                             length := leDecode ((buf.drop 12).take 8)
                             typ := leDecode ((buf.drop 20).take 4) },
                           4 + leDecode (buf.take 4)) := by
  have main : ∀ b : List Nat, 20 ≤ leDecode (b.take 4) → 4 + leDecode (b.take 4) ≤ b.length →
      read_one b = .ok ({ size := leDecode (b.take 4)
                          base_addr := leDecode ((b.drop 4).take 8)
                          length := leDecode ((b.drop 12).take 8)
                          typ := leDecode ((b.drop 20).take 4) },
                        4 + leDecode (b.take 4)) := by
    intro b hs hl
    have h1' : ¬ b.length < 4 := by omega
    have h2' : ¬ leDecode (b.take 4) < 20 := by omega
    have h3' : ¬ b.length < 4 + leDecode (b.take 4) := by omega
    simp [read_one, h1', h2', h3']
  refine ⟨main buf hsize hlen, fun buf₂ h24 hlen₂ => ?_⟩
  have ht4 : buf₂.take 4 = buf.take 4 :=
    take_drop_eq_of_take_24_eq (by simpa using h24) (a := 0) (b := 4) (by omega)
  have h4 : (buf₂.drop 4).take 8 = (buf.drop 4).take 8 :=
    take_drop_eq_of_take_24_eq h24 (by omega)
  have h12 : (buf₂.drop 12).take 8 = (buf.drop 12).take 8 :=
    take_drop_eq_of_take_24_eq h24 (by omega)
  have h20 : (buf₂.drop 20).take 4 = (buf.drop 20).take 4 :=
    take_drop_eq_of_take_24_eq h24 (by omega)
  have := main buf₂ (by rw [ht4]; exact hsize) (by rw [ht4]; exact hlen₂)
  rw [this, ht4, h4, h12, h20]

/-- Witness for `read_one_ok_fields`: a concrete 33-byte record with
`size = 28` (8 extension bytes, pattern `0xEE`) parses to the expected
fields with `consumed = 32`, and changing the extension byte does not
change the result. -/
theorem read_one_ok_fields_witness :
    read_one ([28, 0, 0, 0] ++ [0, 16, 0, 0, 0, 0, 0, 0] ++ [17, 17, 0, 0, 0, 0, 0, 0] ++
        [2, 0, 0, 0] ++ List.replicate 8 238 ++ [5]) =
      .ok ({ size := 28, base_addr := 4096, length := 4369, typ := 2 }, 32) := by
  have h := (read_one_ok_fields ([28, 0, 0, 0] ++ [0, 16, 0, 0, 0, 0, 0, 0] ++
      [17, 17, 0, 0, 0, 0, 0, 0] ++ [2, 0, 0, 0] ++ List.replicate 8 238 ++ [5])
    (by decide) (by decide)).1
  simpa using h

/-- **C10.** `push_entry buf entry` only appends: the elements at indices
`[0, buf.length)` are unchanged (the old buffer is a prefix of the new
one) and the length never decreases. -/
theorem push_entry_appends_only (buf : List Nat) (entry : RawEntry) :
    (push_entry buf entry).take buf.length = buf ∧
    buf.length ≤ (push_entry buf entry).length := by
  constructor
  · exact List.take_left buf _
  · simp [push_entry]

/-- **C3** (failing evaluation).  `push_entry` as implemented in
`src/raw.rs` appends the four field values as four single elements, in
the order `typ`, `base_addr`, `length`, `size`: on the empty buffer and
the minimal entry `raw 0x1000 0x9000 1` it produces a 4-element buffer
`[1, 0x1000, 0x9000, 20]` instead of the 24 little-endian wire-format
bytes `size, base_addr, length, typ` that its doc comment and the tests
`push_entry_appends_24_for_minimal` /
`push_entry_writes_expected_wire_format_for_minimal` require, so
`read_one` cannot round-trip its output. -/
theorem push_entry_not_wire_format :
    push_entry [] (raw 4096 36864 1) = [1, 4096, 36864, 20] ∧
    (push_entry [] (raw 4096 36864 1)).length = 4 := by
  exact ⟨rfl, rfl⟩

/-- `u64::saturating_add`: addition clamped to the `u64` range. -/
def u64SaturatingAdd (a b : Nat) : Nat := min (a + b) (2 ^ 64 - 1)

/-- `MemRegion` from `src/raw.rs` / `src/frames.rs`: the sanitized
description of one memory range.  `start` and `len` are `u64`, `kind` is
the `u32` class code. -/
structure MemRegion where
  start : Nat
  len : Nat
  kind : Nat
deriving Repr, DecidableEq

/-- `MemRegion::end` from `src/frames.rs` (the copy in `src/raw.rs` is
`todo!()`): `self.start.saturating_add(self.len)`. -/
def MemRegion.«end» (r : MemRegion) : Nat := u64SaturatingAdd r.start r.len

/-- **C9.** For every `MemRegion` (including those where `start + len`
overflows `u64`), `end()` is `start + len` computed with saturating
addition, hence `end() ≥ start` always holds: `end()` never wraps below
`start`. -/
theorem memRegion_end_saturates (r : MemRegion)
    (hs : r.start < 2 ^ 64) (hl : r.len < 2 ^ 64) :
    MemRegion.«end» r = min (r.start + r.len) (2 ^ 64 - 1) ∧
    r.start ≤ MemRegion.«end» r := by
  refine ⟨rfl, ?_⟩
  have h : (2:Nat) ^ 64 = 18446744073709551616 := by norm_num
  simp only [MemRegion.«end», u64SaturatingAdd]
  omega

/-- Witness for `memRegion_end_saturates`: a region whose `start + len`
overflows `u64` still satisfies `end() ≥ start`. -/
theorem memRegion_end_saturates_witness :
    MemRegion.«end» { start := 2 ^ 64 - 16, len := 512, kind := 1 } =
        min (2 ^ 64 - 16 + 512) (2 ^ 64 - 1) ∧
    2 ^ 64 - 16 ≤ MemRegion.«end» { start := 2 ^ 64 - 16, len := 512, kind := 1 } :=
  memRegion_end_saturates { start := 2 ^ 64 - 16, len := 512, kind := 1 }
    (by norm_num) (by norm_num)

/-- Modelled from the spec: the body of `sanitize` in `src/raw.rs`
(lines 150-156) is `todo!()`; this definition follows spec §4.4: reject
`length == 0`, reject when `start + length` overflows the `u64` address
width (never wrap or clamp), otherwise build the region, with no
filtering by kind. -/
def sanitize (e : RawEntry) : Option MemRegion :=
  if e.length = 0 then none
  else if 2 ^ 64 ≤ e.base_addr + e.length then none
  else some { start := e.base_addr, len := e.length, kind := e.typ }

/-- **C6.** `sanitize` returns `none` on `length = 0`; otherwise `none`
when `base_addr + length` overflows `u64` (reject, never wrap or clamp);
otherwise `some (MemRegion start len kind)` carrying the fields through,
with no filtering by `kind` at this stage. -/
theorem sanitize_policy (e : RawEntry) :
    (e.length = 0 → sanitize e = none) ∧
    (e.length ≠ 0 → 2 ^ 64 ≤ e.base_addr + e.length → sanitize e = none) ∧
    (e.length ≠ 0 → e.base_addr + e.length < 2 ^ 64 →
      sanitize e = some { start := e.base_addr, len := e.length, kind := e.typ }) := by
  refine ⟨fun h => by simp [sanitize, h], fun h1 h2 => ?_, fun h1 h2 => ?_⟩
  · unfold sanitize
    rw [if_neg h1, if_pos h2]
  · unfold sanitize
    rw [if_neg h1, if_neg (by omega)]

/-- Witness for `sanitize_policy`: the three policy branches at concrete
entries — zero length rejected, `u64::MAX - 15 + 512` overflow rejected,
and an ordinary non-usable entry (`typ = 2`) passed through unfiltered. -/
theorem sanitize_policy_witness :
    sanitize (raw 8192 0 1) = none ∧
    sanitize (raw (2 ^ 64 - 16) 512 1) = none ∧
    sanitize (raw 4096 36864 2) = some { start := 4096, len := 36864, kind := 2 } := by
  refine ⟨(sanitize_policy (raw 8192 0 1)).1 (by decide), ?_, ?_⟩
  · exact (sanitize_policy (raw (2 ^ 64 - 16) 512 1)).2.1 (by norm_num [raw])
      (by norm_num [raw])
  · exact (sanitize_policy (raw 4096 36864 2)).2.2 (by norm_num [raw]) (by norm_num [raw])

/-- A successful `read_one` consumes at least the 24-byte minimal record
and never more than the buffer holds. -/
theorem read_one_ok_inv {b : List Nat} {e : RawEntry} {c : Nat}
    (h : read_one b = .ok (e, c)) : 24 ≤ c ∧ c ≤ b.length := by
  by_cases h1 : b.length < 4
  · simp [read_one, h1] at h
  · by_cases h2 : leDecode (b.take 4) < 20
    · simp [read_one, h1, h2] at h
    · by_cases h3 : b.length < 4 + leDecode (b.take 4)
      · simp [read_one, h1, h2, h3] at h
      · simp [read_one, h1, h2, h3] at h
        obtain ⟨-, hc⟩ := h
        omega

/-- Modelled from the spec: `Mb1MmapIter` in `src/raw.rs` (lines 104-114)
holds only `PhantomData` and its `new`/`next` are `todo!()`; spec §4.3
gives the state: the original blob and a current byte offset (initialized
to 0 by `new`). -/
structure Mb1MmapIter where
  buf : List Nat
  offset : Nat
deriving Repr, DecidableEq

/-- Modelled from the spec: the body of `Mb1MmapIter::next` in
`src/raw.rs` (lines 116-132) is `todo!()`; spec §4.3 gives the step
semantics: at the end of the blob the sequence has ended (the offset
never exceeds the blob length, so the spec's `offset == blob length` test
is written `≤` to keep the model total); otherwise parse
`blob[offset..]`; on success emit the entry and advance by `consumed`; on
failure emit the error once and set the offset to the blob length.  One
step returns the emitted item (if any) and the successor state. -/
def Mb1MmapIter.next (it : Mb1MmapIter) :
    Option (Except MmapError RawEntry) × Mb1MmapIter :=
  if it.buf.length ≤ it.offset then (none, it)
  else
    match read_one (it.buf.drop it.offset) with
    | .ok (e, consumed) => (some (.ok e), { buf := it.buf, offset := it.offset + consumed })
    | .error err => (some (.error err), { buf := it.buf, offset := it.buf.length })

/-- A step taken at (or past) the end of the blob ends the sequence and
leaves the state unchanged. -/
theorem Mb1MmapIter.next_at_end {it : Mb1MmapIter} (h : it.buf.length ≤ it.offset) :
    it.next = (none, it) := by
  unfold Mb1MmapIter.next
  rw [if_pos h]

/-- Case analysis of an item-yielding step: either a successful parse
that advances the offset by `consumed ≥ 24`, or a failure that jumps the
offset to the blob length. -/
theorem Mb1MmapIter.next_cases {it : Mb1MmapIter} {r : Except MmapError RawEntry}
    {it' : Mb1MmapIter} (h : it.next = (some r, it')) :
    it.offset < it.buf.length ∧
    ((∃ e c, read_one (it.buf.drop it.offset) = .ok (e, c) ∧ r = .ok e ∧
        it' = { buf := it.buf, offset := it.offset + c } ∧ 24 ≤ c ∧
        it.offset + c ≤ it.buf.length) ∨
      (∃ err, r = .error err ∧ it' = { buf := it.buf, offset := it.buf.length })) := by
  unfold Mb1MmapIter.next at h
  by_cases h1 : it.buf.length ≤ it.offset
  · rw [if_pos h1] at h
    simp at h
  · rw [if_neg h1] at h
    refine ⟨by omega, ?_⟩
    cases hr : read_one (it.buf.drop it.offset) with
    | ok pr =>
      obtain ⟨e, c⟩ := pr
      rw [hr] at h
      obtain ⟨hc24, hcle⟩ := read_one_ok_inv hr
      injection h with ha hb
      injection ha with ha
      refine .inl ⟨e, c, rfl, ha.symm, hb.symm, hc24, ?_⟩
      have hd : (it.buf.drop it.offset).length = it.buf.length - it.offset := by simp
      omega
    | error err =>
      rw [hr] at h
      injection h with ha hb
      injection ha with ha
      exact .inr ⟨err, ha.symm, hb.symm⟩

/-- Modelled from the spec: the full (finite) sequence of items produced
by repeatedly pulling `Mb1MmapIter.next` from a state until it reports
the end.  Spec §4.3 guarantees every step advances the offset or ends, so
the remaining byte count is a decreasing measure. -/
def Mb1MmapIter.items (it : Mb1MmapIter) : List (Except MmapError RawEntry) :=
  match h : it.next with
  | (none, _) => []
  | (some r, it') => r :: it'.items
termination_by it.buf.length - it.offset
decreasing_by
  obtain ⟨hlt, hc⟩ := Mb1MmapIter.next_cases h
  rcases hc with ⟨e, c, -, -, hit, hc24, hcle⟩ | ⟨err, -, hit⟩ <;> rw [hit] <;> simp <;> omega

/-- A state at the end of the blob produces no items. -/
theorem Mb1MmapIter.items_next_none {it : Mb1MmapIter} (h : it.next.1 = none) :
    it.items = [] := by
  rw [Mb1MmapIter.items.eq_def]
  split
  · rfl
  · rename_i r it' heq
    rw [heq] at h
    simp at h

/-- An item-yielding step prepends its item to the successor state's
items. -/
theorem Mb1MmapIter.items_next_some {it : Mb1MmapIter} {r : Except MmapError RawEntry}
    {it' : Mb1MmapIter} (h : it.next = (some r, it')) :
    it.items = r :: it'.items := by
  rw [Mb1MmapIter.items.eq_def]
  split
  · rename_i x heq
    rw [h] at heq
    simp at heq
  · rename_i r₂ it₂ heq
    rw [h] at heq
    injection heq with ha hb
    injection ha with ha
    rw [ha, hb]

/-- The item sequence from any state is bounded by the remaining byte
count divided by 4, plus one. -/
theorem Mb1MmapIter.items_length_le (it : Mb1MmapIter) :
    it.items.length ≤ (it.buf.length - it.offset) / 4 + 1 := by
  induction it using Mb1MmapIter.items.induct with
  | case1 it x heq =>
    rw [Mb1MmapIter.items_next_none (by rw [heq])]
    simp
  | case2 it r it' heq ih =>
    rw [Mb1MmapIter.items_next_some heq]
    obtain ⟨hlt, hc⟩ := Mb1MmapIter.next_cases heq
    rcases hc with ⟨e, c, -, -, hit, hc24, hcle⟩ | ⟨err, -, hit⟩
    · subst hit
      simp only [List.length_cons]
      simp only [] at ih
      omega
    · rw [Mb1MmapIter.items_next_none (by rw [Mb1MmapIter.next_at_end (by rw [hit])])]
      simp only [List.length_cons, List.length_nil]
      omega

/-- An item-yielding step that reports a parse failure leaves the
iterator at the end of the blob. -/
theorem Mb1MmapIter.next_error_state {it : Mb1MmapIter} {err : MmapError}
    (h : it.next.1 = some (.error err)) :
    it.next.2 = { buf := it.buf, offset := it.buf.length } := by
  rcases hn : it.next with ⟨o, it'⟩
  rw [hn] at h
  simp only [] at h
  subst h
  obtain ⟨-, hc⟩ := Mb1MmapIter.next_cases hn
  rcases hc with ⟨e, c, -, hr, -, -, -⟩ | ⟨err₂, -, hit⟩
  · simp at hr
  · simpa using hit

/-- **C4.** When a step of `Mb1MmapIter.next` hits a parse failure it
yields that error exactly once: the successor state is terminal — its
next step yields `none` without changing the state (so every subsequent
step yields `none`), and it contributes no further items.  In particular,
for any blob whose first 4 bytes decode little-endian to a value below 20
(e.g. 0) followed by arbitrarily many trailing bytes, the iterator from
offset 0 produces exactly one `SizeTooSmall` error item and then ends. -/
theorem iter_error_once_then_none :
    (∀ (it : Mb1MmapIter) (err : MmapError), it.next.1 = some (.error err) →
      it.next.2.next = (none, it.next.2) ∧ it.next.2.items = []) ∧
    (∀ (b0 b1 b2 b3 : Nat) (rest : List Nat), leDecode [b0, b1, b2, b3] < 20 →
      Mb1MmapIter.items { buf := [b0, b1, b2, b3] ++ rest, offset := 0 } =
        [.error (.SizeTooSmall (leDecode [b0, b1, b2, b3]))]) := by
  constructor
  · intro it err h
    have hs := Mb1MmapIter.next_error_state h
    have hend : it.next.2.buf.length ≤ it.next.2.offset := by
      rw [hs]
    refine ⟨?_, Mb1MmapIter.items_next_none (by rw [Mb1MmapIter.next_at_end hend])⟩
    have := Mb1MmapIter.next_at_end hend
    exact this
  · intro b0 b1 b2 b3 rest hsize
    have ht : ([b0, b1, b2, b3] ++ rest).take 4 = [b0, b1, b2, b3] := by
      simp
    have hro : read_one ([b0, b1, b2, b3] ++ rest) =
        .error (.SizeTooSmall (leDecode [b0, b1, b2, b3])) := by
      have h1' : ¬ ([b0, b1, b2, b3] ++ rest).length < 4 := by simp
      simp only [read_one, ht]
      rw [if_neg h1', if_pos hsize]
    have hnext : Mb1MmapIter.next { buf := [b0, b1, b2, b3] ++ rest, offset := 0 } =
        (some (.error (.SizeTooSmall (leDecode [b0, b1, b2, b3]))),
         { buf := [b0, b1, b2, b3] ++ rest,
           offset := ([b0, b1, b2, b3] ++ rest).length }) := by
      unfold Mb1MmapIter.next
      rw [if_neg (by simp)]
      simp only [List.drop_zero]
      rw [hro]
    rw [Mb1MmapIter.items_next_some hnext,
      Mb1MmapIter.items_next_none (by rw [Mb1MmapIter.next_at_end (by simp)])]

/-- Witness for `iter_error_once_then_none`: both parts at concrete
inputs — a 4-byte zero blob whose error step lands in a terminal state,
and a `size = 0` header followed by 64 trailing bytes yielding exactly
one `SizeTooSmall 0` item. -/
theorem iter_error_once_then_none_witness :
    (Mb1MmapIter.next { buf := [0, 0, 0, 0], offset := 0 }).2.next =
      (none, (Mb1MmapIter.next { buf := [0, 0, 0, 0], offset := 0 }).2) ∧
    Mb1MmapIter.items { buf := [0, 0, 0, 0] ++ List.replicate 64 170, offset := 0 } =
      [.error (.SizeTooSmall 0)] := by
  constructor
  · exact (iter_error_once_then_none.1 { buf := [0, 0, 0, 0], offset := 0 }
      (.SizeTooSmall 0) rfl).1
  · have h := iter_error_once_then_none.2 0 0 0 0 (List.replicate 64 170) (by decide)
    rw [show leDecode [0, 0, 0, 0] = 0 from by decide] at h
    exact h

/-- **C5.** For every finite blob, the item sequence of `Mb1MmapIter`
over it (from offset 0) is a finite list of at most `blob.length / 4 + 1`
items; and every step from every state either ends the sequence
immediately, advances the offset by at least 4 bytes, or is a final
error step after which the sequence has ended — there is no state in
which a step neither advances the offset nor ends the sequence. -/
theorem iter_terminates (blob : List Nat) (it : Mb1MmapIter) :
    (Mb1MmapIter.items { buf := blob, offset := 0 }).length ≤ blob.length / 4 + 1 ∧
    (it.next.1 = none ∨ it.offset + 4 ≤ it.next.2.offset ∨ it.next.2.next.1 = none) := by
  constructor
  · have h := Mb1MmapIter.items_length_le { buf := blob, offset := 0 }
    simpa using h
  · rcases hn : it.next with ⟨o, it'⟩
    cases o with
    | none => exact .inl rfl
    | some r =>
      obtain ⟨hlt, hc⟩ := Mb1MmapIter.next_cases hn
      rcases hc with ⟨e, c, -, -, hit, hc24, -⟩ | ⟨err, -, hit⟩
      · refine .inr (.inl ?_)
        rw [hit]
        simp only []
        omega
      · by_cases h4 : it.offset + 4 ≤ it.buf.length
        · refine .inr (.inl ?_)
          rw [hit]
          simpa using h4
        · refine .inr (.inr ?_)
          rw [Mb1MmapIter.next_at_end (by rw [hit])]

/-- `align_up` from `src/frames.rs` (lines 340-342):
`(x + (a - 1)) & !(a - 1)` on `u64`.  The `u64` addition wraps (hence the
explicit `% 2^64`), and `!m` is the 64-bit complement `2^64 - 1 - m` (for
`m < 2^64`). -/
def align_up (x a : Nat) : Nat :=
  ((x + (a - 1)) % 2 ^ 64) &&& (2 ^ 64 - 1 - (a - 1))

/-- `align_down` from `src/frames.rs` (lines 343-345): `x & !(a - 1)` on
`u64`. -/
def align_down (x a : Nat) : Nat :=
  x &&& (2 ^ 64 - 1 - (a - 1))

/-- Masking a 64-bit value with `!(4096 - 1)` clears the low 12 bits:
the result is the value rounded down to a multiple of 4096. -/
theorem land_high_mask (x : Nat) (hx : x < 2 ^ 64) :
    x &&& (2 ^ 64 - 1 - 4095) = 4096 * (x / 4096) := by
  have hmask : (2 : Nat) ^ 64 - 1 - 4095 = (2 ^ 52 - 1) <<< 12 := by
    norm_num [Nat.shiftLeft_eq]
  rw [hmask]
  have h1 : x &&& ((2 ^ 52 - 1) <<< 12) = (x >>> 12) <<< 12 := by
    apply Nat.eq_of_testBit_eq
    intro i
    rw [Nat.testBit_and, Nat.testBit_shiftLeft, Nat.testBit_shiftLeft,
      Nat.testBit_shiftRight, Nat.testBit_two_pow_sub_one]
    by_cases h12 : 12 ≤ i
    · by_cases h64 : i < 64
      · have hlt : i - 12 < 52 := by omega
        simp [h12, hlt, Nat.add_sub_cancel' h12]
      · have hx' : x.testBit i = false :=
          Nat.testBit_lt_two_pow
            (lt_of_lt_of_le hx (Nat.pow_le_pow_right (by norm_num) (by omega)))
        have hx2 : x.testBit (12 + (i - 12)) = false := by
          rwa [Nat.add_sub_cancel' h12]
        simp [hx', hx2]
    · simp [h12]
  rw [h1, Nat.shiftRight_eq_div_pow, Nat.shiftLeft_eq]
  norm_num [Nat.mul_comm]

/-- `align_down x 4096` on a `u64` value rounds down to a multiple of
4096. -/
theorem align_down_spec (x : Nat) (hx : x < 2 ^ 64) :
    align_down x 4096 = 4096 * (x / 4096) := by
  unfold align_down
  rw [show (2 : Nat) ^ 64 - 1 - (4096 - 1) = 2 ^ 64 - 1 - 4095 by norm_num]
  exact land_high_mask x hx

/-- `align_up x 4096` rounds up to a multiple of 4096 when the internal
addition `x + 4095` does not wrap. -/
theorem align_up_spec (x : Nat) (h : x + 4095 < 2 ^ 64) :
    align_up x 4096 = 4096 * ((x + 4095) / 4096) := by
  unfold align_up
  rw [show (2 : Nat) ^ 64 - 1 - (4096 - 1) = 2 ^ 64 - 1 - 4095 by norm_num,
    show (4096 : Nat) - 1 = 4095 by norm_num, Nat.mod_eq_of_lt h]
  exact land_high_mask (x + 4095) h

/-- **C8.** For every `u64` value `x` such that `x + 4095` does not
overflow, `align_up x 4096` is the least multiple of 4096 that is `≥ x`;
and for every `u64` value `x`, `align_down x 4096` is the greatest
multiple of 4096 that is `≤ x`. -/
theorem align_up_down_arith (x : Nat) (hx : x < 2 ^ 64) :
    (x + 4095 < 2 ^ 64 →
      align_up x 4096 % 4096 = 0 ∧ x ≤ align_up x 4096 ∧
      ∀ m : Nat, m % 4096 = 0 → x ≤ m → align_up x 4096 ≤ m) ∧
    (align_down x 4096 % 4096 = 0 ∧ align_down x 4096 ≤ x ∧
      ∀ m : Nat, m % 4096 = 0 → m ≤ x → m ≤ align_down x 4096) := by
  constructor
  · intro h
    rw [align_up_spec x h]
    exact ⟨by omega, by omega, fun m hm hxm => by omega⟩
  · rw [align_down_spec x hx]
    exact ⟨by omega, by omega, fun m hm hmx => by omega⟩

/-- Witness for `align_up_down_arith` at `x = 5000`: `align_up` gives
8192 and `align_down` gives 4096, each characterized as least/greatest
aligned bound. -/
theorem align_up_down_arith_witness :
    (5000 : Nat) < 2 ^ 64 ∧
    ((5000 + 4095 < 2 ^ 64 →
      align_up 5000 4096 % 4096 = 0 ∧ 5000 ≤ align_up 5000 4096 ∧
      ∀ m : Nat, m % 4096 = 0 → 5000 ≤ m → align_up 5000 4096 ≤ m) ∧
    (align_down 5000 4096 % 4096 = 0 ∧ align_down 5000 4096 ≤ 5000 ∧
      ∀ m : Nat, m % 4096 = 0 → m ≤ 5000 → m ≤ align_down 5000 4096)) :=
  ⟨by norm_num, align_up_down_arith 5000 (by norm_num)⟩

/-- `PhysFrame` from `src/frames.rs`: a 4096-byte physical page
identified by its base address (`u64`). -/
structure PhysFrame where
  addr : Nat
deriving Repr, DecidableEq

/-- Modelled from the spec: `UsableFrames` in `src/frames.rs`
(lines 347-361) holds only `PhantomData` and its `new`/`next` are
`todo!()`; spec §4.5 gives the state: a cursor into the remaining region
sequence plus the `current` and `end` addresses of the region being
emitted (`end` is named `ending` here, `end` being a Lean keyword).  The
initial state of `new regions` is `Advancing` with no region loaded,
i.e. `current = ending = 0`. -/
structure UsableFrames where
  regions : List MemRegion
  current : Nat
  ending : Nat
deriving Repr, DecidableEq

/-- Modelled from the spec: the `Advancing` loop of spec §4.5 (the inner
loop of `UsableFrames::next` in `src/frames.rs`, whose body is
`todo!()`): pull regions until one is viable, skipping regions with
`kind ≠ 1` and regions whose aligned bounds `align_up start 4096 ≥
align_down end() 4096` contain no whole aligned frame.  Returns the
aligned bounds of the first viable region together with the regions
after it, or `none` when the sequence is exhausted. -/
def loadRegion : List MemRegion → Option (Nat × Nat × List MemRegion)
  | [] => none
  | r :: rest =>
    if r.kind = 1 then
      if align_up r.start 4096 < align_down (MemRegion.«end» r) 4096 then
        some (align_up r.start 4096, align_down (MemRegion.«end» r) 4096, rest)
      else loadRegion rest
    else loadRegion rest

/-- Modelled from the spec: one pull of `UsableFrames::next`
(spec §4.5): in `Emitting` (`current < end`) emit `PhysFrame(current)`
and advance by 4096; otherwise advance through the region list and, on
loading a viable region, emit its first frame. -/
def UsableFrames.next (u : UsableFrames) : Option (PhysFrame × UsableFrames) :=
  if u.current < u.ending then
    some (⟨u.current⟩, { u with current := u.current + 4096 })
  else
    match loadRegion u.regions with
    | none => none
    | some (s, t, rest) => some (⟨s⟩, { regions := rest, current := s + 4096, ending := t })

/-- A successful `loadRegion` returns the aligned bounds of a usable
region of the input, and the regions after it. -/
theorem loadRegion_spec {rs : List MemRegion} {s t : Nat} {rest : List MemRegion}
    (h : loadRegion rs = some (s, t, rest)) :
    ∃ pre r, rs = pre ++ r :: rest ∧ r.kind = 1 ∧ s = align_up r.start 4096 ∧
      t = align_down (MemRegion.«end» r) 4096 ∧ s < t := by
  induction rs with
  | nil => simp [loadRegion] at h
  | cons r rest' ih =>
    unfold loadRegion at h
    by_cases hk : r.kind = 1
    · rw [if_pos hk] at h
      by_cases hst : align_up r.start 4096 < align_down (MemRegion.«end» r) 4096
      · rw [if_pos hst] at h
        injection h with h
        injection h with h1 h2
        injection h2 with h2 h3
        exact ⟨[], r, by rw [h3]; rfl, hk, h1.symm, h2.symm, by rw [← h1, ← h2]; exact hst⟩
      · rw [if_neg hst] at h
        obtain ⟨pre, r₂, hrs, hk₂, hs, ht, hlt⟩ := ih h
        exact ⟨r :: pre, r₂, by rw [List.cons_append, hrs], hk₂, hs, ht, hlt⟩
    · rw [if_neg hk] at h
      obtain ⟨pre, r₂, hrs, hk₂, hs, ht, hlt⟩ := ih h
      exact ⟨r :: pre, r₂, by rw [List.cons_append, hrs], hk₂, hs, ht, hlt⟩

/-- `loadRegion` finds nothing in a list with no usable region. -/
theorem loadRegion_none_of_no_usable {rs : List MemRegion}
    (h : ∀ r ∈ rs, r.kind ≠ 1) : loadRegion rs = none := by
  induction rs with
  | nil => rfl
  | cons r rest' ih =>
    unfold loadRegion
    rw [if_neg (h r (by simp))]
    exact ih fun r' hr' => h r' (by simp [hr'])

/-- Case analysis of one pull: either an emission from the current
region, or the loading of the next viable region (emitting its first
frame). -/
theorem UsableFrames.next_emit_or_load {u : UsableFrames} {f : PhysFrame}
    {u' : UsableFrames} (h : u.next = some (f, u')) :
    (u.current < u.ending ∧ f = ⟨u.current⟩ ∧
      u' = { u with current := u.current + 4096 }) ∨
    (¬ u.current < u.ending ∧ ∃ s t rest, loadRegion u.regions = some (s, t, rest) ∧
      f = ⟨s⟩ ∧ u' = { regions := rest, current := s + 4096, ending := t }) := by
  unfold UsableFrames.next at h
  by_cases hc : u.current < u.ending
  · rw [if_pos hc] at h
    injection h with h
    injection h with h1 h2
    exact .inl ⟨hc, h1.symm, h2.symm⟩
  · rw [if_neg hc] at h
    cases hl : loadRegion u.regions with
    | none => rw [hl] at h; simp at h
    | some triple =>
      obtain ⟨s, t, rest⟩ := triple
      rw [hl] at h
      injection h with h
      injection h with h1 h2
      exact .inr ⟨hc, s, t, rest, rfl, h1.symm, h2.symm⟩

/-- Modelled from the spec: the full (finite) sequence of frames produced
by repeatedly pulling `UsableFrames.next` until the region sequence is
exhausted.  Each pull either stays in the current region with a strictly
smaller gap to its end, or moves past at least one region, so the pair
(regions left, gap) is a decreasing lexicographic measure. -/
def UsableFrames.run (u : UsableFrames) : List PhysFrame :=
  match h : u.next with
  | none => []
  | some (f, u') => f :: u'.run
termination_by (u.regions.length, u.ending - u.current)
decreasing_by
  rcases UsableFrames.next_emit_or_load h with ⟨hc, -, hu⟩ | ⟨hc, s, t, rest, hl, -, hu⟩
  · subst hu
    apply Prod.Lex.right
    simp only []
    omega
  · subst hu
    apply Prod.Lex.left
    obtain ⟨pre, r, hrs, -⟩ := loadRegion_spec hl
    rw [hrs]
    simp
    omega

/-- A state whose pull reports the end produces no frames. -/
theorem UsableFrames.run_next_none {u : UsableFrames} (h : u.next = none) :
    u.run = [] := by
  rw [UsableFrames.run.eq_def]
  split
  · rfl
  · rename_i f u' heq
    rw [h] at heq
    simp at heq

/-- A frame-yielding pull prepends its frame to the successor state's
frames. -/
theorem UsableFrames.run_next_some {u : UsableFrames} {f : PhysFrame}
    {u' : UsableFrames} (h : u.next = some (f, u')) :
    u.run = f :: u'.run := by
  rw [UsableFrames.run.eq_def]
  split
  · rename_i heq
    rw [h] at heq
    simp at heq
  · rename_i f₂ u₂ heq
    rw [h] at heq
    injection heq with ha
    injection ha with ha hb
    rw [ha, hb]

/-- Component-wise description of one pull: the two branches of
`UsableFrames.next_emit_or_load` stated on the fields of the successor
state. -/
theorem UsableFrames.next_fields {u : UsableFrames} {f : PhysFrame} {u' : UsableFrames}
    (h : u.next = some (f, u')) :
    (u.current < u.ending ∧ f.addr = u.current ∧ u'.regions = u.regions ∧
      u'.current = u.current + 4096 ∧ u'.ending = u.ending) ∨
    (¬ u.current < u.ending ∧ ∃ s t rest, loadRegion u.regions = some (s, t, rest) ∧
      f.addr = s ∧ u'.regions = rest ∧ u'.current = s + 4096 ∧ u'.ending = t) := by
  rcases UsableFrames.next_emit_or_load h with ⟨hc, hf, hu⟩ | ⟨hc, s, t, rest, hl, hf, hu⟩
  · exact .inl ⟨hc, by rw [hf], by rw [hu], by rw [hu], by rw [hu]⟩
  · exact .inr ⟨hc, s, t, rest, hl, by rw [hf], by rw [hu], by rw [hu], by rw [hu]⟩

/-- Every frame produced from a state whose cursor invariants hold is
4096-aligned and lies (with its whole 4096-byte extent) inside some
usable region of the ambient list `rs`. -/
theorem UsableFrames.run_mem_aux (rs : List MemRegion)
    (H1 : ∀ r ∈ rs, r.start + 4095 < 2 ^ 64) :
    ∀ u : UsableFrames, u.current % 4096 = 0 → u.ending % 4096 = 0 →
      (u.current < u.ending → ∃ r ∈ rs, r.kind = 1 ∧ r.start ≤ u.current ∧
        u.ending ≤ MemRegion.«end» r) →
      (∀ r ∈ u.regions, r ∈ rs) →
      ∀ f ∈ u.run, f.addr % 4096 = 0 ∧
        ∃ r ∈ rs, r.kind = 1 ∧ r.start ≤ f.addr ∧ f.addr + 4096 ≤ MemRegion.«end» r := by
  intro u
  induction u using UsableFrames.run.induct with
  | case1 u heq =>
    intro _ _ _ _ f hf
    rw [UsableFrames.run_next_none heq] at hf
    simp at hf
  | case2 u f₀ u' heq ih =>
    intro hcur hend hseg hsub f hf
    rw [UsableFrames.run_next_some heq] at hf
    rcases UsableFrames.next_fields heq with ⟨hc, hf₀, hureg, hucur, huend⟩ |
      ⟨hc, s, t, rest, hl, hf₀, hureg, hucur, huend⟩
    · obtain ⟨r, hrmem, hrk, hrs, hre⟩ := hseg hc
      rcases List.mem_cons.mp hf with hfe | hftail
      · subst hfe
        exact ⟨by omega, r, hrmem, hrk, by omega, by omega⟩
      · refine ih (by omega) (by omega)
          (fun hlt => ⟨r, hrmem, hrk, by omega, by omega⟩)
          (fun r' hr' => hsub r' (by rwa [hureg] at hr')) f hftail
    · obtain ⟨pre, r, hrs, hrk, hs, ht, hst⟩ := loadRegion_spec hl
      have hrmem : r ∈ rs := hsub r (by rw [hrs]; simp)
      have hr64 : r.start + 4095 < 2 ^ 64 := H1 r hrmem
      have hsspec : s = 4096 * ((r.start + 4095) / 4096) := by
        rw [hs, align_up_spec _ hr64]
      have hend64 : MemRegion.«end» r < 2 ^ 64 := by
        have h2 : (2 : Nat) ^ 64 = 18446744073709551616 := by norm_num
        unfold MemRegion.«end» u64SaturatingAdd
        omega
      have htspec : t = 4096 * (MemRegion.«end» r / 4096) := by
        rw [ht, align_down_spec _ hend64]
      have hrles : r.start ≤ s := by omega
      have htle : t ≤ MemRegion.«end» r := by omega
      rcases List.mem_cons.mp hf with hfe | hftail
      · subst hfe
        exact ⟨by omega, r, hrmem, hrk, by omega, by omega⟩
      · refine ih (by omega) (by omega)
          (fun hlt => ⟨r, hrmem, hrk, by omega, by omega⟩)
          (fun r' hr' => hsub r' ?_) f hftail
        rw [hureg] at hr'
        rw [hrs]
        exact List.mem_append_right _ (List.mem_cons_of_mem _ hr')

/-- From a state whose cursor invariants and region ordering hold
(regions sorted, pairwise disjoint, starting after the current segment),
the produced frames are strictly increasing and bounded below by the
cursor. -/
theorem UsableFrames.run_pairwise_aux :
    ∀ u : UsableFrames, u.current % 4096 = 0 → u.ending % 4096 = 0 →
      u.current ≤ u.ending →
      (∀ r ∈ u.regions, u.ending ≤ r.start ∧ r.start + 4095 < 2 ^ 64) →
      List.Pairwise (fun a b => MemRegion.«end» a ≤ b.start) u.regions →
      List.Pairwise (fun a b : PhysFrame => a.addr < b.addr) u.run ∧
      ∀ f ∈ u.run, u.current ≤ f.addr := by
  intro u
  induction u using UsableFrames.run.induct with
  | case1 u heq =>
    intro _ _ _ _ _
    rw [UsableFrames.run_next_none heq]
    exact ⟨List.Pairwise.nil, by simp⟩
  | case2 u f₀ u' heq ih =>
    intro hcur hend hce hreg hpw
    rw [UsableFrames.run_next_some heq]
    rcases UsableFrames.next_fields heq with ⟨hc, hf₀, hureg, hucur, huend⟩ |
      ⟨hc, s, t, rest, hl, hf₀, hureg, hucur, huend⟩
    · obtain ⟨pw', lb'⟩ := ih (by omega) (by omega) (by omega)
        (fun r hr => by
          obtain ⟨h1, h2⟩ := hreg r (by rwa [hureg] at hr)
          exact ⟨by omega, h2⟩)
        (by rw [hureg]; exact hpw)
      refine ⟨List.pairwise_cons.mpr ⟨fun f hf => ?_, pw'⟩, fun f hf => ?_⟩
      · have := lb' f hf
        omega
      · rcases List.mem_cons.mp hf with hfe | hft
        · subst hfe
          omega
        · have := lb' f hft
          omega
    · obtain ⟨pre, r, hrs, hrk, hs, ht, hst⟩ := loadRegion_spec hl
      have hrmem : r ∈ u.regions := by rw [hrs]; simp
      obtain ⟨hendr, hr64⟩ := hreg r hrmem
      have hsspec : s = 4096 * ((r.start + 4095) / 4096) := by
        rw [hs, align_up_spec _ hr64]
      have hend64 : MemRegion.«end» r < 2 ^ 64 := by
        have h2 : (2 : Nat) ^ 64 = 18446744073709551616 := by norm_num
        unfold MemRegion.«end» u64SaturatingAdd
        omega
      have htspec : t = 4096 * (MemRegion.«end» r / 4096) := by
        rw [ht, align_down_spec _ hend64]
      have hrles : r.start ≤ s := by omega
      have htle : t ≤ MemRegion.«end» r := by omega
      have hsubl : List.Sublist (r :: rest) u.regions := by
        rw [hrs]
        exact List.sublist_append_right _ _
      obtain ⟨hrrel, hpwrest⟩ := List.pairwise_cons.mp (List.Pairwise.sublist hsubl hpw)
      obtain ⟨pw', lb'⟩ := ih (by omega) (by omega) (by omega)
        (fun r' hr' => by
          rw [hureg] at hr'
          obtain ⟨-, h2⟩ := hreg r'
            (by rw [hrs]; exact List.mem_append_right _ (List.mem_cons_of_mem _ hr'))
          have h3 := hrrel r' hr'
          exact ⟨by omega, h2⟩)
        (by rw [hureg]; exact hpwrest)
      refine ⟨List.pairwise_cons.mpr ⟨fun f hf => ?_, pw'⟩, fun f hf => ?_⟩
      · have := lb' f hf
        omega
      · rcases List.mem_cons.mp hf with hfe | hft
        · subst hfe
          omega
        · have := lb' f hft
          omega

/-- **C7** (counterexample).  The frame enumerator walks the sanitized
regions in input order and never deduplicates: on the (sanitized,
overlapping) input `[{start 0, len 4096, kind 1}, {start 0, len 4096,
kind 1}]` it emits the address 0 twice, so the claim's "ascending
address order with no address emitted twice" is false for arbitrary
region sequences. -/
theorem usable_frames_claim_counterexample :
    UsableFrames.run { regions := [{ start := 0, len := 4096, kind := 1 },
        { start := 0, len := 4096, kind := 1 }], current := 0, ending := 0 } =
      [⟨0⟩, ⟨0⟩] ∧
    ¬ List.Pairwise (fun a b : PhysFrame => a.addr < b.addr)
      (UsableFrames.run { regions := [{ start := 0, len := 4096, kind := 1 },
          { start := 0, len := 4096, kind := 1 }], current := 0, ending := 0 }) := by
  have h1 : UsableFrames.next { regions := [{ start := 0, len := 4096, kind := 1 },
      { start := 0, len := 4096, kind := 1 }], current := 0, ending := 0 } =
      some (⟨0⟩, { regions := [{ start := 0, len := 4096, kind := 1 }],
                   current := 4096, ending := 4096 }) := by decide
  have h2 : UsableFrames.next { regions := [{ start := 0, len := 4096, kind := 1 }],
                                current := 4096, ending := 4096 } =
      some (⟨0⟩, { regions := [], current := 4096, ending := 4096 }) := by decide
  have h3 : UsableFrames.next { regions := ([] : List MemRegion),
                                current := 4096, ending := 4096 } = none := by decide
  have hrun : UsableFrames.run { regions := [{ start := 0, len := 4096, kind := 1 },
      { start := 0, len := 4096, kind := 1 }], current := 0, ending := 0 } =
      [⟨0⟩, ⟨0⟩] := by
    rw [UsableFrames.run_next_some h1, UsableFrames.run_next_some h2,
      UsableFrames.run_next_none h3]
  refine ⟨hrun, ?_⟩
  rw [hrun]
  intro hp
  have h0 := (List.pairwise_cons.mp hp).1 ⟨0⟩ (by simp)
  simp at h0

/-- **C7** (amended).  For every finite sequence of sanitized regions
whose aligned bounds cannot wrap (`start + 4095 < 2^64`, which the
Sanitizer's `start + len` overflow check does not by itself guarantee):
every emitted frame address is a multiple of 4096 and its 4096-byte
extent lies entirely within some input region with `kind = 1`; if the
input regions are moreover pairwise ordered and disjoint (each earlier
region's `end()` is at most each later region's `start`, as a bootloader
memory map is), the frames are emitted in strictly ascending address
order, so no address is emitted twice; and a region sequence with no
`kind = 1` region contributes zero frames regardless of sizes and
alignments. -/
theorem usable_frames_enumeration (rs : List MemRegion)
    (H1 : ∀ r ∈ rs, r.start + 4095 < 2 ^ 64) :
    (∀ f ∈ UsableFrames.run { regions := rs, current := 0, ending := 0 },
      f.addr % 4096 = 0 ∧ ∃ r ∈ rs, r.kind = 1 ∧ r.start ≤ f.addr ∧
        f.addr + 4096 ≤ MemRegion.«end» r) ∧
    (List.Pairwise (fun a b => MemRegion.«end» a ≤ b.start) rs →
      List.Pairwise (fun a b : PhysFrame => a.addr < b.addr)
        (UsableFrames.run { regions := rs, current := 0, ending := 0 })) ∧
    ((∀ r ∈ rs, r.kind ≠ 1) →
      UsableFrames.run { regions := rs, current := 0, ending := 0 } = []) := by
  refine ⟨?_, ?_, ?_⟩
  · exact UsableFrames.run_mem_aux rs H1 _ (by simp) (by simp) (by simp) (fun r hr => hr)
  · intro H2
    exact (UsableFrames.run_pairwise_aux _ (by simp) (by simp) (by simp)
      (fun r hr => ⟨by simp, H1 r hr⟩) H2).1
  · intro hk
    have hl := loadRegion_none_of_no_usable hk
    apply UsableFrames.run_next_none
    unfold UsableFrames.next
    simp [hl]

/-- Witness for `usable_frames_enumeration`: an ordered usable/reserved
pair produces strictly ascending frames, and an all-reserved sequence
produces none. -/
theorem usable_frames_enumeration_witness :
    List.Pairwise (fun a b : PhysFrame => a.addr < b.addr)
      (UsableFrames.run { regions := [{ start := 4096, len := 4096, kind := 1 },
        { start := 16384, len := 4096, kind := 2 }], current := 0, ending := 0 }) ∧
    UsableFrames.run { regions := [{ start := 0, len := 99999, kind := 7 }],
                       current := 0, ending := 0 } = [] := by
  constructor
  · exact (usable_frames_enumeration
      [{ start := 4096, len := 4096, kind := 1 }, { start := 16384, len := 4096, kind := 2 }]
      (by decide)).2.1 (by decide)
  · exact (usable_frames_enumeration [{ start := 0, len := 99999, kind := 7 }]
      (by decide)).2.2 (by decide)
